import Mathlib

/-!
Verification of the rich-text layout engine of `plotdevice` (file
`src/plotdevice/gfx/text.py`) against its natural-language specification.

The development shallowly embeds the parts of `Text`, `TextFrame` and
`TextMatch` that the claims are about:

* the attributed string held in `Text._store` is modelled as an `AttrString`:
  a character list paired with one paragraph-style record (`Graf`) per
  character; only the two indentation fields read and written by
  `Text._dedent` are tracked (`firstLineHeadIndent` / `headIndent`, the
  values `NSParagraphStyle` stores in device units; modelled as rationals
  since only their ordering and update behaviour matter to the claims);
* the append-time indentation heuristic (`Text.append`, lines 170-186) is
  `appendDedents`: the two edge-of-buffer rules (`preDedent`) followed by the
  scan of the final appended text for `\n\x08` and `\n\n+[^\n]` occurrences
  (`scanForDedents`, a direct model of `re.finditer` over that two-branch
  pattern: leftmost match, non-overlapping, greedy newline run);
* a laid-out `Text` is a `TextModel`: its store, the `_nodes` table of
  xml-derived regions, and its list of `TextFrame`s, each frame carrying the
  character range (`location`, `length`) that the NSLayoutManager reports
  for it via `characterRangeForGlyphRange`.  The layout engine itself is
  external to the repository; the invariant it guarantees - the frames'
  character claims tile a prefix of the store, in frame order - is the
  predicate `wf`;
* `Text.overleaf` is `overleaf`; the character claims that the engine
  assigns to the copied frames after the clone is laid out are an explicit
  `relayout` argument, since they are chosen by the external engine;
* `Text.flow` / `Text._reflow` are `flowModel` / `reflowGo`, abstracting the
  engine as a map `claims` from the index of the last frame to the glyph
  position `sum(frame._glyphs)` reached after that frame is laid out, and
  `self._engine.numberOfGlyphs()` as `total`;
* `Text.find`'s flag selection is `findCompile`, parametrized by the
  Unicode case mapping `lower` that stands for Python's `unicode.lower`
  (the case-mapping table, like the `re` matching itself, is external
  library data, so the flag logic is proved for every case mapping); `Text.__getitem__`'s integer branch is `getitemInt`;
  `TextMatch.__init__`'s source dispatch and the `_is_regex` gate guarding
  `group`/`groups`/`groupdict` are `TextMatchM.mk'` and `TextMatchM.group1`
  etc., with errors as an `Except` value.
-/

namespace PlotDevice

/-- Indentation-relevant fragment of an `NSParagraphStyle` attribute:
the first-line head indent and the head indent of the remaining lines,
as set by `Text._fontify` and rewritten by `Text._dedent`. -/
structure Graf where
  firstLineHeadIndent : ℚ
  headIndent : ℚ
deriving DecidableEq, Inhabited

/-- Model of the `NSMutableAttributedString` being built by `Text.append`:
the character data together with the paragraph-style attribute attached to
each character position. -/
structure AttrString where
  chars : List Char
  grafs : List Graf
deriving DecidableEq, Inhabited

/-- Replace the element at index `i` (out-of-range indices leave the list
unchanged; the code never produces one). -/
def modifyIdx : List α → Nat → (α → α) → List α
  | [], _, _ => []
  | a :: l, 0, f => f a :: l
  | a :: l, n+1, f => a :: modifyIdx l n f

/-- Model of `Text._dedent(attrib_txt, idx, inherit)`: read the paragraph
style at `idx`, set its first-line indent to the subsequent-lines indent
unless the first line is outdented (`first > rest or inherit`), and store
the result back at `idx`. -/
def dedentAt (t : AttrString) (idx : Nat) (inherit : Bool) : AttrString :=
  { t with grafs := modifyIdx t.grafs idx (fun g =>
      if g.firstLineHeadIndent > g.headIndent ∨ inherit then
        { g with firstLineHeadIndent := g.headIndent }
      else g) }

/-- Model of `re.finditer(r'\n\x08|\n\n+[^\n]', s)` returning `m.end()-1`
for each match, exactly as the loop at the end of `Text.append` consumes
it.  `p` is the absolute index of the head of the remaining list; the
`inRun` flag records that the scanner is inside the greedy `\n\n+` run of
the second branch (having already consumed at least two newlines). -/
def scanForDedents : Bool → List Char → Nat → List Nat
  | _, [], _ => []
  | true, c :: rest, p =>
    if c = '\n' then scanForDedents true rest (p+1)
    else p :: scanForDedents false rest (p+1)
  | false, c :: rest, p =>
    if c = '\n' then
      match rest with
      | [] => []
      | d :: rest' =>
        if d = '\x08' then (p+1) :: scanForDedents false rest' (p+2)
        else if d = '\n' then scanForDedents true rest' (p+2)
        else scanForDedents false (d :: rest') (p+1)
    else scanForDedents false rest (p+1)
termination_by structural _ l _ => l

/-- Test for `re.search(r'\n[\n\x08]$', pre_txt)`: the existing buffer ends
with a newline followed by a newline or the indent-override escape. -/
def endsBlankOrEsc (pre : List Char) : Bool :=
  match pre.reverse with
  | c :: d :: _ => d = '\n' && (c = '\n' || c = '\x08')
  | _ => false

/-- Test for `re.match(r'\n[^\n]', s)`. -/
def startsNlNonNl (s : List Char) : Bool :=
  match s with
  | '\n' :: c :: _ => c != '\n'
  | _ => false

/-- Test for `re.match(r'\x08', s)`. -/
def startsEsc (s : List Char) : Bool :=
  match s with
  | '\x08' :: _ => true
  | _ => false

/-- Edge-of-buffer indentation rules of `Text.append` (lines 174-181):
dedent the very first character when the buffer is empty or ends with a
blank line or an escaped line; when the buffer ends with exactly one
newline, dedent position 1 if the appended text starts with a blank line
followed by content, or position 0 if it starts with the escape. -/
def preDedent (pre : List Char) (t : AttrString) : AttrString :=
  if pre.isEmpty || endsBlankOrEsc pre then dedentAt t 0 false
  else if pre.getLast? = some '\n' then
    if startsNlNonNl t.chars then dedentAt t 1 false
    else if startsEsc t.chars then dedentAt t 0 false
    else t
  else t

/-- Full indentation heuristic applied by `Text.append` to the appended
attributed string `t`, given the pre-existing buffer text `pre`:
the edge rules, then one `Text._dedent` per match of the
`\n\x08|\n\n+[^\n]` scan over the final appended text. -/
def appendDedents (pre : List Char) (t : AttrString) : AttrString :=
  let t1 := preDedent pre t
  (scanForDedents false t1.chars 0).foldl (fun acc i => dedentAt acc i false) t1

/-- Position `i` of `t` carries no positive first-line indent relative to
its body lines (the flush-left outcome `Text._dedent` establishes). -/
def flushAt (t : AttrString) (i : Nat) : Prop :=
  (t.grafs.getD i default).firstLineHeadIndent ≤ (t.grafs.getD i default).headIndent

/-- Model of the tab-stop computation in `Text._fontify` (lines 225-230):
`indent = font.size * spec['indent']; tabs = abs(indent or font.size)`,
the interval installed by `setDefaultTabInterval_` which a literal tab
character at paragraph start advances to. -/
def fontifyTabs (size indent : ℚ) : ℚ :=
  let ind := size * indent
  |(if ind = 0 then size else ind)|

/-- One xml-derived region held in `Text._nodes`: the buffer-relative span
of the `namedtuple` the `XMLParser` produces.  `Text.overleaf` rewrites
exactly the `start`/`end` fields (via `_replace`); the remaining payload
(tag name, attributes, ancestor chain) rides along unchanged and is left
out of the model.  The fields are integers because the rebasing
subtraction is done on Python ints, which can go negative. -/
structure Element where
  start : Int
  stop : Int
deriving DecidableEq, Inhabited

/-- Model of a `TextFrame` as far as the claims are concerned: the
character range `(location, length)` of the parent store that the layout
engine reports as visible in the frame (`TextFrame._chars`). -/
structure FrameModel where
  chars : Nat × Nat
deriving DecidableEq, Inhabited

/-- Model of a laid-out `Text`: its attributed store, the `_nodes` lookup
table (tag name to its ordered region list), and its frames. -/
structure TextModel where
  store : AttrString
  nodes : List (String × List Element)
  frames : List FrameModel
deriving DecidableEq, Inhabited

/-- Character content of `TextFrame.text`:
`self._parent._store.string().substringWithRange_(self._chars)`. -/
def frameText (buf : List Char) (f : FrameModel) : List Char :=
  (buf.drop f.chars.1).take f.chars.2

/-- Concatenation `u"".join(f.text for f in self._frames)` of the visible
text across the frame set, as computed inside `Text.overleaf`. -/
def visText (T : TextModel) : List Char :=
  T.frames.foldr (fun f acc => frameText T.store.chars f ++ acc) []

/-- The frames' character claims are consecutive starting at `pos`: each
frame begins where the previous one ended. -/
def tiledFrom : List FrameModel → Nat → Bool
  | [], _ => true
  | f :: rest, pos => f.chars.1 == pos && tiledFrom rest (pos + f.chars.2)

/-- Total number of characters claimed by the frames. -/
def claimedLen (fs : List FrameModel) : Nat :=
  (fs.map (fun f => f.chars.2)).sum

/-- Layout invariant guaranteed by the external NSLayoutManager (spec 3:
the character counts claimed by all frames, in frame order, form a prefix
of the buffer): the claims tile the buffer from position 0 and stay within
its length. -/
def wf (T : TextModel) : Prop :=
  tiledFrom T.frames 0 = true ∧ claimedLen T.frames ≤ T.store.chars.length

instance (T : TextModel) : Decidable (wf T) := by unfold wf; infer_instance

/-- Spans recorded by the markup parser are in-bounds and non-empty. -/
def nodesWf (T : TextModel) : Prop :=
  ∀ pr ∈ T.nodes, ∀ e ∈ pr.2,
    0 ≤ e.start ∧ e.start < e.stop ∧ e.stop ≤ (T.store.chars.length : Int)

instance (T : TextModel) : Decidable (nodesWf T) := by
  unfold nodesWf; infer_instance

/-- Python's substring containment `pat in hay` on strings. -/
def strContains (hay pat : List Char) : Bool :=
  hay.tails.any (fun t => pat.isPrefixOf t)

/-- Model of `Text.overleaf`.  `relayout` is the list of character claims
that the external engine assigns to the copied frames once the clone's
store is laid out (the copy recreates one frame per original frame with
the same offset and size; what each claims is up to the engine).
Everything else follows the source: if the full string is contained in the
concatenated visible text, return nothing; otherwise delete the first
`len(seen)` characters from the copied store, rebase the `_nodes` table
dropping regions with `end - nc <= 0`, and, when the consumed prefix does
not end on a newline, re-run `_dedent` with `inherit=True` at position 0
of the new store. -/
def overleaf (T : TextModel) (relayout : List (Nat × Nat)) : Option TextModel :=
  let seen := visText T
  let full := T.store.chars
  if strContains seen full then none
  else
    let nc := seen.length
    let store1 : AttrString := ⟨full.drop nc, T.store.grafs.drop nc⟩
    let store2 := if seen.getLast? = some '\n' then store1 else dedentAt store1 0 true
    some { store := store2
           nodes := T.nodes.map (fun pr =>
             (pr.1, pr.2.filterMap (fun e =>
               if 0 < e.stop - (nc : Int) then
                 some { e with start := e.start - (nc : Int), stop := e.stop - (nc : Int) }
               else none)))
           frames := relayout.map (fun c => ⟨c⟩) }

/-- Argument accepted by `Text.flow`: the `all` builtin (its default), an
integer column count, or `None`. -/
inductive FlowArg
  | allCols
  | cols (n : Int)
  | noneArg
deriving DecidableEq

/-- The sanity check `columns = 1e4 if columns is all else int(columns or 1)`
at the top of `Text.flow` (`0` and `None` are falsy, hence coerced to 1). -/
def coerceCols : FlowArg → Int
  | .allCols => 10000
  | .noneArg => 1
  | .cols n => if n = 0 then 1 else n

/-- Frame-creation loop of `Text._reflow`, driven to completion.  `claims i`
is the glyph position `sum(frame._glyphs)` that the engine reports for the
newest frame once `i+1` frames exist; `total` is
`self._engine.numberOfGlyphs()`.  The loop guard `len(self._frames) < count`
is carried as the remaining capacity `cap = count - len`; `last` is the
claim of the frame the loop variable currently points at.  Each created
frame is represented by its claim value. -/
def reflowGo (claims : Nat → Nat) (total : Nat) : Nat → Nat → Nat → List Nat
  | 0, _, _ => []
  | cap+1, len, last =>
    if last < total then claims len :: reflowGo claims total cap (len+1) (claims len)
    else []

/-- Model of `Text.flow` driven to completion: coerce the column argument,
eject every frame after index 0, run the `_reflow` loop.  Returns the list
of yielded (new) frames and the resulting frame list of the `Text`. -/
def flowModel (claims : Nat → Nat) (total : Nat) (frames : List Nat)
    (columns : FlowArg) : List Nat × List Nat :=
  let cnt := coerceCols columns
  let yielded := reflowGo claims total (cnt.toNat - 1) 1 (claims 0)
  (yielded, frames.take 1 ++ yielded)

/-- Errors surfaced by the modelled operations (`DeviceError` carriers and
the builtin `IndexError`), named after the spec's error taxonomy. -/
inductive Err
  | indexOutOfRange
  | unsupportedOperation
  | invalidArgument
deriving DecidableEq

/-- Decidable equality for `Except` results, so that witnesses can be
checked by evaluation. -/
instance {ε α : Type} [DecidableEq ε] [DecidableEq α] : DecidableEq (Except ε α) := fun x y =>
  match x, y with
  | .ok a, .ok b =>
    if h : a = b then .isTrue (by rw [h]) else .isFalse (by intro hh; cases hh; exact h rfl)
  | .error a, .error b =>
    if h : a = b then .isTrue (by rw [h]) else .isFalse (by intro hh; cases hh; exact h rfl)
  | .ok _, .error _ => .isFalse (by intro hh; cases hh)
  | .error _, .ok _ => .isFalse (by intro hh; cases hh)

/-- Integer branch of `Text.__getitem__`: negative indices are shifted by
the text length, out-of-range adjusted indices raise `IndexError`, and the
resulting match spans exactly one character. -/
def getitemInt (T : TextModel) (index : Int) : Except Err (Int × Int) :=
  let n : Int := T.store.chars.length
  let idx := if index < 0 then index + n else index
  if 0 ≤ idx ∧ idx < n then .ok (idx, idx + 1) else .error .indexOutOfRange

/-- Flags of a compiled `re` pattern (the two that `Text.find` deals in). -/
structure ReFlags where
  ignoreCase : Bool
  dotAll : Bool
deriving DecidableEq

/-- Argument given to `Text.find`: a pattern string, an already compiled
pattern object (carrying its own flags), or anything else. -/
inductive FindArg
  | strPat (p : List Char)
  | compiled (flags : ReFlags)
  | other
deriving DecidableEq

/-- Flag-selection logic of `Text.find`: a pattern string is compiled with
`re.I|re.S` when `regex.lower() == regex` and with `re.S` alone otherwise;
a compiled pattern keeps its own flags; any other argument raises
`DeviceError`.  The only operation the code performs on the pattern's
characters is `unicode.lower()`; its full Unicode case-mapping table is
Python-library data external to this repository, so it enters the model
as the oracle parameter `lower`, applied per character exactly as
`unicode.lower` is. -/
def findCompile (lower : Char → Char) : FindArg → Except Err ReFlags
  | .strPat p => .ok ⟨p.map lower = p, true⟩
  | .compiled flags => .ok flags
  | .other => .error .invalidArgument

/-- Span table of a Python `re` match object: `spans.getD i` plays the role
of `m.span(i)` (group 0 is the whole match; a group that did not
participate reports `(-1, -1)`). -/
structure ReMatch where
  spans : List (Int × Int)
deriving DecidableEq, Inhabited

/-- The four-way source dispatch of `TextMatch.__init__` plus the bare
construction `TextMatch(self)` used by `Text.__getitem__`. -/
inductive MatchSrc
  | nsrange (loc len : Nat)
  | xmlElement (tag : String) (e : Element)
  | textFrame (loc len : Nat)
  | reMatch (mm : ReMatch) (s e : Int)
  | subTuple (s e : Int) (grp : Nat)
  | noMatch
deriving DecidableEq

/-- Fields of a `TextMatch` relevant to the sub-group accessors: the span
and the `m` attribute, which holds the originating `re` match object and
stays `None` for every other source. -/
structure TextMatchM where
  start : Int
  stop : Int
  m : Option ReMatch
deriving DecidableEq, Inhabited

/-- Construction dispatch of `TextMatch.__init__` over the source shape
(`hasattr` chain in the source): only the `re.Match` branch assigns
`self.m`. -/
def TextMatchM.mk' : MatchSrc → TextMatchM
  | .nsrange loc len => ⟨(loc : Int), (loc : Int) + (len : Int), none⟩
  | .xmlElement _ e => ⟨e.start, e.stop, none⟩
  | .textFrame loc len => ⟨(loc : Int), (loc : Int) + (len : Int), none⟩
  | .reMatch mm s e => ⟨s, e, some mm⟩
  | .subTuple s e _ => ⟨s, e, none⟩
  | .noMatch => ⟨0, 0, none⟩

/-- Model of `TextMatch.group` for a single index: the `_is_regex` gate
(raising `DeviceError` when `self.m` is `None`), then
`rng = self.m.span(idx)`, returning a sub-match unless the group did not
participate (`rng[0] == -1`). -/
def TextMatchM.group1 (tm : TextMatchM) (idx : Nat) : Except Err (Option TextMatchM) :=
  match tm.m with
  | none => .error .unsupportedOperation
  | some mm =>
    let rng := mm.spans.getD idx (-1, -1)
    .ok (if rng.1 ≠ -1 then some ⟨rng.1, rng.2, none⟩ else none)

/-- Model of `TextMatch.groups`: the `_is_regex` gate, then one sub-match
per capture group from index 1 on. -/
def TextMatchM.groupsM (tm : TextMatchM) : Except Err (List (Option TextMatchM)) :=
  match tm.m with
  | none => .error .unsupportedOperation
  | some mm =>
    .ok ((List.range (mm.spans.length - 1)).map (fun i =>
      let rng := mm.spans.getD (i+1) (-1, -1)
      if rng.1 ≠ -1 then some ⟨rng.1, rng.2, none⟩ else none))

/-- Model of `TextMatch.groupdict` up to the `_is_regex` gate (group names
are not tracked by `ReMatch`; a gated unit result stands in for the
dictionary). -/
def TextMatchM.groupdictM (tm : TextMatchM) : Except Err Unit :=
  match tm.m with
  | none => .error .unsupportedOperation
  | some _ => .ok ()

/-! Concrete instances used by counterexamples and witnesses. -/

/-- Text "ab" whose single frame shows only "a" (the layout engine fits one
character); the tail overflows. -/
def exT1 : TextModel := ⟨⟨['a', 'b'], [⟨0, 0⟩, ⟨0, 0⟩]⟩, [], [⟨(0, 1)⟩]⟩

/-- Result of `overleaf exT1 [(0,0)]`: buffer "b", one frame in which the
engine laid out no characters (the copied frame is too small for a line). -/
def exP1 : TextModel := ⟨⟨['b'], [⟨0, 0⟩]⟩, [], [⟨(0, 0)⟩]⟩

/-- Text "abcd" with a tag region spanning characters 0-3 and a single
frame showing "ab": the region straddles the overflow split point. -/
def exT2 : TextModel :=
  ⟨⟨['a', 'b', 'c', 'd'], [⟨0, 0⟩, ⟨0, 0⟩, ⟨0, 0⟩, ⟨0, 0⟩]⟩,
   [("t", [⟨0, 3⟩])], [⟨(0, 2)⟩]⟩

/-- Result of `overleaf exT2 [(0,0)]`: the straddling region survives
(`end - nc = 1 > 0`) rebased to span `(-2, 1)` - a negative start. -/
def exP2 : TextModel :=
  ⟨⟨['c', 'd'], [⟨0, 0⟩, ⟨0, 0⟩]⟩, [("t", [⟨-2, 1⟩])], [⟨(0, 0)⟩]⟩

/-- Text "ab" with a tag region on its second character and a frame
showing only "a": the region lies wholly beyond the split point. -/
def exT2w : TextModel :=
  ⟨⟨['a', 'b'], [⟨0, 0⟩, ⟨0, 0⟩]⟩, [("t", [⟨1, 2⟩])], [⟨(0, 1)⟩]⟩

/-- Result of `overleaf exT2w [(0,1)]`: the region survives rebased to
`(0, 1)`, within the new buffer's bounds. -/
def exP2w : TextModel :=
  ⟨⟨['b'], [⟨0, 0⟩]⟩, [("t", [⟨0, 1⟩])], [⟨(0, 1)⟩]⟩

/-- Text "ab" that is fully visible in its one frame. -/
def exT5 : TextModel := ⟨⟨['a', 'b'], [⟨0, 0⟩, ⟨0, 0⟩]⟩, [], [⟨(0, 2)⟩]⟩

/-- Appended attributed string "A\n\n\tB" whose every character carries a
positive first-line indent (10 units) over a zero body indent. -/
def exT6 : AttrString :=
  ⟨['A', '\n', '\n', '\t', 'B'], [⟨10, 0⟩, ⟨10, 0⟩, ⟨10, 0⟩, ⟨10, 0⟩, ⟨10, 0⟩]⟩

/-- Engine claim schedule used by the flow examples: with `i+1` frames laid
out, the glyphs are consumed up to position `5*(i+1)`. -/
def exClaims : Nat → Nat := fun i => 5 * (i + 1)

/-- Fragment of Python's `unicode.lower` used by the `find` witness: the
basic-latin mapping extended with the non-ASCII upper-case letter `Ä`. -/
def exLower (c : Char) : Char := if c = 'Ä' then 'ä' else Char.toLower c

/-! Helper lemmas about `modifyIdx`, `dedentAt` and the dedent fold. -/

theorem length_modifyIdx : ∀ (l : List α) (i : Nat) (f : α → α),
    (modifyIdx l i f).length = l.length
  | [], _, _ => rfl
  | _ :: l, 0, f => rfl
  | a :: l, n+1, f => by simp [modifyIdx, length_modifyIdx l n f]

theorem getD_modifyIdx_self : ∀ (l : List α) (i : Nat) (f : α → α) (d : α),
    i < l.length → (modifyIdx l i f).getD i d = f (l.getD i d)
  | [], i, _, _, h => absurd h (by simp)
  | a :: l, 0, f, d, _ => rfl
  | a :: l, n+1, f, d, h => by
    simpa [modifyIdx] using getD_modifyIdx_self l n f d (by simpa using h)

theorem getD_modifyIdx_ne : ∀ (l : List α) (i j : Nat) (f : α → α) (d : α),
    i ≠ j → (modifyIdx l i f).getD j d = l.getD j d
  | [], _, _, _, _, _ => rfl
  | a :: l, 0, 0, f, d, h => absurd rfl h
  | a :: l, 0, j+1, f, d, _ => rfl
  | a :: l, i+1, 0, f, d, _ => rfl
  | a :: l, i+1, j+1, f, d, h => by
    simpa [modifyIdx] using getD_modifyIdx_ne l i j f d (fun hh => h (by rw [hh]))

theorem dedentAt_chars (t : AttrString) (i : Nat) (b : Bool) :
    (dedentAt t i b).chars = t.chars := rfl

theorem flushAt_dedentAt_self (t : AttrString) (i : Nat) (b : Bool) :
    flushAt (dedentAt t i b) i := by
  unfold flushAt dedentAt
  by_cases h : i < t.grafs.length
  · rw [getD_modifyIdx_self _ _ _ _ h]
    split
    · exact le_refl _
    · next hn => exact le_of_not_lt (fun hlt => hn (Or.inl hlt))
  · rw [List.getD_eq_default _ _ (by rw [length_modifyIdx]; omega)]
    decide

theorem flushAt_dedent_preserved (t : AttrString) (i j : Nat) (b : Bool)
    (h : flushAt t j) : flushAt (dedentAt t i b) j := by
  unfold flushAt dedentAt
  by_cases hl : j < t.grafs.length
  · by_cases hij : i = j
    · subst hij
      rw [getD_modifyIdx_self _ _ _ _ hl]
      split
      · exact le_refl _
      · exact h
    · rw [getD_modifyIdx_ne _ _ _ _ _ hij]; exact h
  · rw [List.getD_eq_default _ _ (by rw [length_modifyIdx]; omega)]
    decide

theorem flushAt_foldl_preserved : ∀ (ps : List Nat) (t : AttrString) (j : Nat),
    flushAt t j → flushAt (ps.foldl (fun a i => dedentAt a i false) t) j
  | [], _, _, h => h
  | p :: ps, t, j, h =>
    flushAt_foldl_preserved ps (dedentAt t p false) j (flushAt_dedent_preserved t p j false h)

theorem flushAt_foldl_mem : ∀ (ps : List Nat) (t : AttrString) (j : Nat),
    j ∈ ps → flushAt (ps.foldl (fun a i => dedentAt a i false) t) j := by
  intro ps
  induction ps with
  | nil => intro t j h; cases h
  | cons p ps ih =>
    intro t j h
    rcases List.mem_cons.mp h with h | h
    · subst h
      exact flushAt_foldl_preserved ps _ j (flushAt_dedentAt_self t j false)
    · exact ih _ j h

theorem foldl_dedent_chars : ∀ (ps : List Nat) (t : AttrString),
    (ps.foldl (fun a i => dedentAt a i false) t).chars = t.chars
  | [], _ => rfl
  | p :: ps, t => by
    rw [List.foldl_cons, foldl_dedent_chars ps _, dedentAt_chars]

/-! Helper lemmas about the `\n\x08|\n\n+[^\n]` scanner: every escape
preceded by a newline, and every first non-newline after two or more
newlines, is emitted as a dedent position no matter where the scanner
currently stands. -/

theorem scan_true_head (c : Char) (rest : List Char) (p : Nat) (hc : c ≠ '\n') :
    p ∈ scanForDedents true (c :: rest) p := by
  simp [scanForDedents, hc]

theorem scan_mem_escape_aux : ∀ (n : Nat) (l : List Char), l.length ≤ n →
    ∀ (mode : Bool) (p j : Nat),
    l.getD j 'X' = '\n' → l.getD (j+1) 'X' = '\x08' →
    p + j + 1 ∈ scanForDedents mode l p := by
  intro n
  induction n with
  | zero =>
    intro l hl mode p j h1 _
    cases l with
    | nil => rw [List.getD_nil] at h1; exact absurd h1 (by decide)
    | cons c rest => simp at hl
  | succ n ih =>
    intro l hl mode p j h1 h2
    cases l with
    | nil => rw [List.getD_nil] at h1; exact absurd h1 (by decide)
    | cons c rest =>
      have hr : rest.length ≤ n := by simp at hl; omega
      cases mode with
      | true =>
        by_cases hc : c = '\n'
        · subst hc
          rw [show scanForDedents true ('\n' :: rest) p = scanForDedents true rest (p+1) by
            simp [scanForDedents]]
          cases j with
          | zero =>
            simp only [List.getD_cons_succ] at h2
            cases rest with
            | nil => rw [List.getD_nil] at h2; exact absurd h2 (by decide)
            | cons d rest2 =>
              simp only [List.getD_cons_zero] at h2
              subst h2
              simpa using scan_true_head '\x08' rest2 (p+1) (by decide)
          | succ k =>
            simp only [List.getD_cons_succ] at h1 h2
            have hm := ih rest hr true (p+1) k h1 h2
            rw [show p + (k+1) + 1 = (p+1) + k + 1 by omega]
            exact hm
        · rw [show scanForDedents true (c :: rest) p = p :: scanForDedents false rest (p+1) by
            simp [scanForDedents, hc]]
          cases j with
          | zero => simp only [List.getD_cons_zero] at h1; exact absurd h1 hc
          | succ k =>
            simp only [List.getD_cons_succ] at h1 h2
            have hm := ih rest hr false (p+1) k h1 h2
            rw [show p + (k+1) + 1 = (p+1) + k + 1 by omega]
            exact List.mem_cons_of_mem _ hm
      | false =>
        cases rest with
        | nil =>
          cases j with
          | zero =>
            simp only [List.getD_cons_succ, List.getD_nil] at h2
            exact absurd h2 (by decide)
          | succ k =>
            simp only [List.getD_cons_succ, List.getD_nil] at h1
            exact absurd h1 (by decide)
        | cons d rest2 =>
          have hr2 : rest2.length ≤ n := by simp at hl; omega
          by_cases hc : c = '\n'
          · subst hc
            by_cases hd : d = '\x08'
            · subst hd
              rw [show scanForDedents false ('\n' :: '\x08' :: rest2) p
                  = (p+1) :: scanForDedents false rest2 (p+2) by simp [scanForDedents]]
              cases j with
              | zero => simp
              | succ k =>
                cases k with
                | zero =>
                  simp only [List.getD_cons_succ, List.getD_cons_zero] at h1
                  exact absurd h1 (by decide)
                | succ k2 =>
                  simp only [List.getD_cons_succ] at h1 h2
                  have hm := ih rest2 hr2 false (p+2) k2 h1 h2
                  rw [show p + (k2+1+1) + 1 = (p+2) + k2 + 1 by omega]
                  exact List.mem_cons_of_mem _ hm
            · by_cases hd2 : d = '\n'
              · subst hd2
                rw [show scanForDedents false ('\n' :: '\n' :: rest2) p
                    = scanForDedents true rest2 (p+2) by simp [scanForDedents]]
                cases j with
                | zero =>
                  simp only [List.getD_cons_succ, List.getD_cons_zero] at h2
                  exact absurd h2 (by decide)
                | succ k =>
                  cases k with
                  | zero =>
                    simp only [List.getD_cons_succ] at h2
                    cases rest2 with
                    | nil => rw [List.getD_nil] at h2; exact absurd h2 (by decide)
                    | cons e rest3 =>
                      simp only [List.getD_cons_zero] at h2
                      subst h2
                      simpa using scan_true_head '\x08' rest3 (p+2) (by decide)
                  | succ k2 =>
                    simp only [List.getD_cons_succ] at h1 h2
                    have hm := ih rest2 hr2 true (p+2) k2 h1 h2
                    rw [show p + (k2+1+1) + 1 = (p+2) + k2 + 1 by omega]
                    exact hm
              · rw [show scanForDedents false ('\n' :: d :: rest2) p
                    = scanForDedents false (d :: rest2) (p+1) by
                  simp [scanForDedents, hd, hd2]]
                cases j with
                | zero =>
                  simp only [List.getD_cons_succ, List.getD_cons_zero] at h2
                  exact absurd h2 hd
                | succ k =>
                  simp only [List.getD_cons_succ] at h1 h2
                  have hm := ih (d :: rest2) (by simp at hl ⊢; omega) false (p+1) k
                    (by simpa using h1) (by simpa using h2)
                  rw [show p + (k+1) + 1 = (p+1) + k + 1 by omega]
                  exact hm
          · rw [show scanForDedents false (c :: d :: rest2) p
                = scanForDedents false (d :: rest2) (p+1) by simp [scanForDedents, hc]]
            cases j with
            | zero => simp only [List.getD_cons_zero] at h1; exact absurd h1 hc
            | succ k =>
              simp only [List.getD_cons_succ] at h1 h2
              have hm := ih (d :: rest2) (by simp at hl ⊢; omega) false (p+1) k
                (by simpa using h1) (by simpa using h2)
              rw [show p + (k+1) + 1 = (p+1) + k + 1 by omega]
              exact hm

theorem scan_mem_escape (l : List Char) (mode : Bool) (p j : Nat)
    (h1 : l.getD j 'X' = '\n') (h2 : l.getD (j+1) 'X' = '\x08') :
    p + j + 1 ∈ scanForDedents mode l p :=
  scan_mem_escape_aux l.length l (le_refl _) mode p j h1 h2

theorem scan_mem_blank_aux : ∀ (n : Nat) (l : List Char), l.length ≤ n →
    ∀ (mode : Bool) (p j : Nat),
    l.getD j 'X' = '\n' → l.getD (j+1) 'X' = '\n' →
    j + 2 < l.length → l.getD (j+2) 'X' ≠ '\n' →
    p + j + 2 ∈ scanForDedents mode l p := by
  intro n
  induction n with
  | zero =>
    intro l hl mode p j h1 _ _ _
    cases l with
    | nil => rw [List.getD_nil] at h1; exact absurd h1 (by decide)
    | cons c rest => simp at hl
  | succ n ih =>
    intro l hl mode p j h1 h2 h3 h4
    cases l with
    | nil => rw [List.getD_nil] at h1; exact absurd h1 (by decide)
    | cons c rest =>
      have hr : rest.length ≤ n := by simp at hl; omega
      cases mode with
      | true =>
        by_cases hc : c = '\n'
        · subst hc
          rw [show scanForDedents true ('\n' :: rest) p = scanForDedents true rest (p+1) by
            simp [scanForDedents]]
          cases j with
          | zero =>
            simp only [List.getD_cons_succ] at h2 h4
            simp only [List.length_cons] at h3
            cases rest with
            | nil => rw [List.getD_nil] at h2; exact absurd h2 (by decide)
            | cons d rest2 =>
              simp only [List.getD_cons_zero] at h2
              subst h2
              rw [show scanForDedents true ('\n' :: rest2) (p+1)
                  = scanForDedents true rest2 (p+2) by simp [scanForDedents]]
              simp only [List.getD_cons_succ] at h4
              cases rest2 with
              | nil => simp at h3
              | cons e rest3 =>
                simp only [List.getD_cons_zero] at h4
                simpa using scan_true_head e rest3 (p+2) h4
          | succ k =>
            simp only [List.getD_cons_succ] at h1 h2 h4
            have hm := ih rest hr true (p+1) k h1 h2 (by simp at h3 ⊢; omega) h4
            rw [show p + (k+1) + 2 = (p+1) + k + 2 by omega]
            exact hm
        · rw [show scanForDedents true (c :: rest) p = p :: scanForDedents false rest (p+1) by
            simp [scanForDedents, hc]]
          cases j with
          | zero => simp only [List.getD_cons_zero] at h1; exact absurd h1 hc
          | succ k =>
            simp only [List.getD_cons_succ] at h1 h2 h4
            have hm := ih rest hr false (p+1) k h1 h2 (by simp at h3 ⊢; omega) h4
            rw [show p + (k+1) + 2 = (p+1) + k + 2 by omega]
            exact List.mem_cons_of_mem _ hm
      | false =>
        cases rest with
        | nil =>
          simp only [List.length_cons, List.length_nil] at h3
          omega
        | cons d rest2 =>
          have hr2 : rest2.length ≤ n := by simp at hl; omega
          by_cases hc : c = '\n'
          · subst hc
            by_cases hd : d = '\x08'
            · subst hd
              cases j with
              | zero =>
                simp only [List.getD_cons_succ, List.getD_cons_zero] at h2
                exact absurd h2 (by decide)
              | succ k =>
                cases k with
                | zero =>
                  simp only [List.getD_cons_succ, List.getD_cons_zero] at h1
                  exact absurd h1 (by decide)
                | succ k2 =>
                  rw [show scanForDedents false ('\n' :: '\x08' :: rest2) p
                      = (p+1) :: scanForDedents false rest2 (p+2) by simp [scanForDedents]]
                  simp only [List.getD_cons_succ] at h1 h2 h4
                  have hm := ih rest2 hr2 false (p+2) k2 h1 h2 (by simp at h3 ⊢; omega) h4
                  rw [show p + (k2+1+1) + 2 = (p+2) + k2 + 2 by omega]
                  exact List.mem_cons_of_mem _ hm
            · by_cases hd2 : d = '\n'
              · subst hd2
                rw [show scanForDedents false ('\n' :: '\n' :: rest2) p
                    = scanForDedents true rest2 (p+2) by simp [scanForDedents]]
                cases j with
                | zero =>
                  simp only [List.getD_cons_succ] at h4
                  simp only [List.length_cons] at h3
                  cases rest2 with
                  | nil => simp at h3
                  | cons e rest3 =>
                    simp only [List.getD_cons_zero] at h4
                    simpa using scan_true_head e rest3 (p+2) h4
                | succ k =>
                  cases k with
                  | zero =>
                    simp only [List.getD_cons_succ] at h2 h4
                    simp only [List.length_cons] at h3
                    cases rest2 with
                    | nil => simp at h3
                    | cons e rest3 =>
                      simp only [List.getD_cons_zero] at h2
                      subst h2
                      rw [show scanForDedents true ('\n' :: rest3) (p+2)
                          = scanForDedents true rest3 (p+3) by simp [scanForDedents]]
                      simp only [List.getD_cons_succ] at h4
                      cases rest3 with
                      | nil => simp at h3
                      | cons e2 rest4 =>
                        simp only [List.getD_cons_zero] at h4
                        simpa using scan_true_head e2 rest4 (p+3) h4
                  | succ k2 =>
                    simp only [List.getD_cons_succ] at h1 h2 h4
                    have hm := ih rest2 hr2 true (p+2) k2 h1 h2 (by simp at h3 ⊢; omega) h4
                    rw [show p + (k2+1+1) + 2 = (p+2) + k2 + 2 by omega]
                    exact hm
              · rw [show scanForDedents false ('\n' :: d :: rest2) p
                    = scanForDedents false (d :: rest2) (p+1) by
                  simp [scanForDedents, hd, hd2]]
                cases j with
                | zero =>
                  simp only [List.getD_cons_succ, List.getD_cons_zero] at h2
                  exact absurd h2 hd2
                | succ k =>
                  simp only [List.getD_cons_succ] at h1 h2 h4
                  have hm := ih (d :: rest2) (by simp at hl ⊢; omega) false (p+1) k
                    (by simpa using h1) (by simpa using h2)
                    (by simp at h3 ⊢; omega) (by simpa using h4)
                  rw [show p + (k+1) + 2 = (p+1) + k + 2 by omega]
                  exact hm
          · rw [show scanForDedents false (c :: d :: rest2) p
                = scanForDedents false (d :: rest2) (p+1) by simp [scanForDedents, hc]]
            cases j with
            | zero => simp only [List.getD_cons_zero] at h1; exact absurd h1 hc
            | succ k =>
              simp only [List.getD_cons_succ] at h1 h2 h4
              have hm := ih (d :: rest2) (by simp at hl ⊢; omega) false (p+1) k
                (by simpa using h1) (by simpa using h2)
                (by simp at h3 ⊢; omega) (by simpa using h4)
              rw [show p + (k+1) + 2 = (p+1) + k + 2 by omega]
              exact hm

theorem scan_mem_blank (l : List Char) (mode : Bool) (p j : Nat)
    (h1 : l.getD j 'X' = '\n') (h2 : l.getD (j+1) 'X' = '\n')
    (h3 : j + 2 < l.length) (h4 : l.getD (j+2) 'X' ≠ '\n') :
    p + j + 2 ∈ scanForDedents mode l p :=
  scan_mem_blank_aux l.length l (le_refl _) mode p j h1 h2 h3 h4

theorem preDedent_chars (pre : List Char) (t : AttrString) :
    (preDedent pre t).chars = t.chars := by
  unfold preDedent
  repeat' split
  all_goals rfl

/-! Helper lemmas about visible text, substring containment and reflow. -/

theorem joinFrames_tiled : ∀ (fs : List FrameModel) (buf : List Char) (pos : Nat),
    tiledFrom fs pos = true →
    fs.foldr (fun f acc => frameText buf f ++ acc) [] = (buf.drop pos).take (claimedLen fs) := by
  intro fs
  induction fs with
  | nil => intro buf pos _; simp [claimedLen]
  | cons f rest ih =>
    intro buf pos ht
    rw [show tiledFrom (f :: rest) pos = (f.chars.1 == pos && tiledFrom rest (pos + f.chars.2))
      from rfl, Bool.and_eq_true, beq_iff_eq] at ht
    obtain ⟨hloc, htl⟩ := ht
    rw [List.foldr_cons, ih buf (pos + f.chars.2) htl]
    rw [show claimedLen (f :: rest) = f.chars.2 + claimedLen rest by
      simp [claimedLen]]
    rw [List.take_add, frameText, hloc, List.drop_drop]

theorem visText_take (T : TextModel) (h : tiledFrom T.frames 0 = true) :
    visText T = T.store.chars.take (claimedLen T.frames) := by
  unfold visText
  rw [joinFrames_tiled T.frames T.store.chars 0 h, List.drop_zero]

theorem visText_length (T : TextModel) (h : wf T) :
    (visText T).length = claimedLen T.frames := by
  rw [visText_take T h.1, List.length_take]
  have := h.2
  omega

theorem strContains_take_iff (l : List Char) (n : Nat) :
    strContains (l.take n) l = true ↔ l.take n = l := by
  unfold strContains
  rw [List.any_eq_true]
  constructor
  · rintro ⟨t, ht, hp⟩
    rw [List.mem_tails] at ht
    rw [List.isPrefixOf_iff_prefix] at hp
    have h1 : l.length ≤ t.length := hp.length_le
    have h2 : t.length ≤ (l.take n).length := ht.length_le
    have h3 : (l.take n).length = min n l.length := List.length_take n l
    have h4 : l.length ≤ n := by omega
    exact List.take_of_length_le h4
  · intro h
    refine ⟨l, ?_, ?_⟩
    · rw [h]; exact List.mem_tails l l |>.mpr (List.suffix_refl l)
    · rw [List.isPrefixOf_iff_prefix]

theorem reflowGo_length (claims : Nat → Nat) (total : Nat) :
    ∀ (cap len last : Nat), (reflowGo claims total cap len last).length ≤ cap := by
  intro cap
  induction cap with
  | zero => intro len last; simp [reflowGo]
  | succ cap ih =>
    intro len last
    by_cases h : last < total
    · rw [show reflowGo claims total (cap+1) len last
          = claims len :: reflowGo claims total cap (len+1) (claims len) by
        simp [reflowGo, h]]
      simpa using Nat.succ_le_succ (ih (len+1) (claims len))
    · rw [show reflowGo claims total (cap+1) len last = [] by simp [reflowGo, h]]
      simp

theorem reflowGo_stop (claims : Nat → Nat) (total : Nat) :
    ∀ (cap len last i : Nat),
    i < (reflowGo claims total cap len last).length →
    (last :: reflowGo claims total cap len last).getD i 0 < total := by
  intro cap
  induction cap with
  | zero => intro len last i hi; simp [reflowGo] at hi
  | succ cap ih =>
    intro len last i hi
    by_cases h : last < total
    · rw [show reflowGo claims total (cap+1) len last
          = claims len :: reflowGo claims total cap (len+1) (claims len) by
        simp [reflowGo, h]] at hi ⊢
      cases i with
      | zero => simpa using h
      | succ k =>
        simp only [List.getD_cons_succ]
        exact ih (len+1) (claims len) k (by simpa using hi)
    · rw [show reflowGo claims total (cap+1) len last = [] by simp [reflowGo, h]] at hi
      simp at hi

/-- Bridge between the code's whole-string test `regex.lower() == regex`
and the per-character reading "no character is changed by lowercasing":
mapping a function over a list is the identity exactly when it fixes every
member. -/
theorem map_lower_eq_self_iff (lower : Char → Char) (p : List Char) :
    p.map lower = p ↔ ∀ c ∈ p, lower c = c := by
  constructor
  · intro h c hc
    have h2 : p.map lower = p.map id := by rw [h, List.map_id]
    simpa using List.map_eq_map_iff.mp h2 c hc
  · intro h
    have h2 : p.map lower = p.map id :=
      List.map_eq_map_iff.mpr (fun c hc => by simpa using h c hc)
    simpa using h2

/-- Shared analysis of a successful `overleaf` call: the guard was false,
the new store is the old one minus the consumed prefix, and the node
table is the rebased one. -/
theorem overleaf_some (T : TextModel) (r : List (Nat × Nat)) (P : TextModel)
    (hsome : overleaf T r = some P) :
    strContains (visText T) T.store.chars = false ∧
    P.store.chars = T.store.chars.drop (visText T).length ∧
    P.nodes = T.nodes.map (fun pr =>
      (pr.1, pr.2.filterMap (fun e =>
        if 0 < e.stop - ((visText T).length : Int) then
          some { e with start := e.start - ((visText T).length : Int),
                        stop := e.stop - ((visText T).length : Int) }
        else none))) := by
  simp only [overleaf] at hsome
  split at hsome
  · exact absurd hsome (by simp)
  · next hguard =>
    rw [Option.some_inj] at hsome
    subst hsome
    refine ⟨by simpa using hguard, ?_, rfl⟩
    split
    · rfl
    · rw [dedentAt_chars]

/-! Claim theorems. -/

/-- Claim C1 (amended): for every well-formed Text `T` whose `overleaf()`
returns a Text `P`, the concatenation of `T`'s visible text (the
frame-claimed prefix) with `P`'s FULL BUFFER text equals `T`'s pre-split
buffer text, with no characters lost or duplicated.  (The claim as stated,
with `P`'s visible text in place of `P`'s buffer, fails: `P` may itself
overflow its frames; see the counterexample.) -/
theorem overleaf_roundtrip (T : TextModel) (r : List (Nat × Nat)) (P : TextModel)
    (hwf : wf T) (h : overleaf T r = some P) :
    visText T ++ P.store.chars = T.store.chars := by
  obtain ⟨-, hchars, -⟩ := overleaf_some T r P h
  rw [hchars, visText_take T hwf.1, List.length_take]
  have h2 := hwf.2
  rw [show min (claimedLen T.frames) T.store.chars.length = claimedLen T.frames by omega]
  exact List.take_append_drop _ _

/-- Claim C1, witness for the amended theorem at the Text "ab" whose frame
shows "a": "a" ++ "b" = "ab". -/
theorem overleaf_roundtrip_witness :
    wf exT1 ∧ visText exT1 ++ exP1.store.chars = exT1.store.chars :=
  ⟨by decide, overleaf_roundtrip exT1 [(0, 0)] exP1 (by decide) (by decide)⟩

/-- Claim C1, counterexample to the claim as stated: `exT1` is the Text
"ab" showing "a" in its single frame; `overleaf` produces `exP1` with
buffer "b", but the engine fits no characters into the copied frame
(claim `(0,0)`), so `P`'s visible text is empty and
`"a" ++ "" ≠ "ab"`.  Both layouts satisfy the frame-tiling invariant. -/
theorem overleaf_roundtrip_counterexample :
    wf exT1 ∧ wf exP1 ∧ overleaf exT1 [(0, 0)] = some exP1 ∧
    visText exT1 ++ visText exP1 ≠ exT1.store.chars := by decide

/-- Claim C2 (amended): after a successful `overleaf()` on a well-formed
Text with in-bounds tag regions, every surviving TagRegion is an original
region shifted by the consumed prefix length, every region wholly before
the split point (`end − shift ≤ 0`) is absent (all survivors have
`0 < end`), and every survivor satisfies `start < end ≤ new buffer
length`.  (The stated lower bound `0 ≤ start` fails for regions straddling
the split point - the code subtracts without clamping - so it is dropped;
see the counterexample.) -/
theorem overleaf_rebase (T : TextModel) (r : List (Nat × Nat)) (P : TextModel)
    (hwf : wf T) (hnodes : nodesWf T) (h : overleaf T r = some P) :
    (∀ pr ∈ P.nodes, ∀ e ∈ pr.2,
      0 < e.stop ∧ e.start < e.stop ∧ e.stop ≤ (P.store.chars.length : Int)) ∧
    (∀ pr ∈ P.nodes, ∃ pr0 ∈ T.nodes, pr.1 = pr0.1 ∧
      ∀ e ∈ pr.2, ∃ e0 ∈ pr0.2,
        e.start = e0.start - ((visText T).length : Int) ∧
        e.stop = e0.stop - ((visText T).length : Int)) := by
  obtain ⟨-, hchars, hnodesP⟩ := overleaf_some T r P h
  have hnc : (visText T).length ≤ T.store.chars.length := by
    rw [visText_length T hwf]; exact hwf.2
  have hlenP : P.store.chars.length = T.store.chars.length - (visText T).length := by
    rw [hchars, List.length_drop]
  constructor
  · intro pr hpr e he
    rw [hnodesP, List.mem_map] at hpr
    obtain ⟨pr0, hpr0, rfl⟩ := hpr
    rw [List.mem_filterMap] at he
    obtain ⟨e0, he0, hee⟩ := he
    split at hee
    · next hpos =>
      rw [Option.some_inj] at hee
      have hstart : e.start = e0.start - ((visText T).length : Int) := by rw [← hee]
      have hstop : e.stop = e0.stop - ((visText T).length : Int) := by rw [← hee]
      have hb := hnodes pr0 hpr0 e0 he0
      refine ⟨by omega, by omega, by omega⟩
    · exact absurd hee (by simp)
  · intro pr hpr
    rw [hnodesP, List.mem_map] at hpr
    obtain ⟨pr0, hpr0, rfl⟩ := hpr
    refine ⟨pr0, hpr0, rfl, ?_⟩
    intro e he
    rw [List.mem_filterMap] at he
    obtain ⟨e0, he0, hee⟩ := he
    split at hee
    · rw [Option.some_inj] at hee
      exact ⟨e0, he0, by rw [← hee], by rw [← hee]⟩
    · exact absurd hee (by simp)

/-- Claim C2, witness: the Text "ab" with tag region `(1,2)` and a frame
showing "a"; the region survives `overleaf` rebased to `(0,1)`, which is
within the new buffer "b" and has a positive end. -/
theorem overleaf_rebase_witness :
    wf exT2w ∧ nodesWf exT2w ∧ overleaf exT2w [(0, 1)] = some exP2w ∧
    (0 < (Element.mk 0 1).stop ∧ (Element.mk 0 1).start < (Element.mk 0 1).stop ∧
      (Element.mk 0 1).stop ≤ (exP2w.store.chars.length : Int)) :=
  ⟨by decide, by decide, by decide,
    (overleaf_rebase exT2w [(0, 1)] exP2w (by decide) (by decide) (by decide)).1
      ("t", [Element.mk 0 1]) (by decide) (Element.mk 0 1) (by decide)⟩

/-- Claim C2, counterexample to the claim as stated: the Text "abcd" with
tag region `(0,3)` and a frame showing "ab"; the region straddles the
split, survives (`3 - 2 = 1 > 0`) and is rebased to `(-2,1)`, whose start
is negative - violating the claimed invariant `0 ≤ start`. -/
theorem overleaf_rebase_counterexample :
    wf exT2 ∧ nodesWf exT2 ∧ overleaf exT2 [(0, 0)] = some exP2 ∧
    exP2.nodes = [("t", [Element.mk (-2) 1])] ∧
    ¬(0 ≤ (Element.mk (-2) 1).start) := by decide

/-- Claim C5: for every well-formed Text, `overleaf()` returns nothing if
and only if every character of the buffer is already visible across the
current frame set; otherwise it returns a Text whose buffer is the
original buffer minus the consumed prefix. -/
theorem overleaf_none_iff (T : TextModel) (r : List (Nat × Nat)) (hwf : wf T) :
    (overleaf T r = none ↔ visText T = T.store.chars) ∧
    (∀ P, overleaf T r = some P →
      P.store.chars = T.store.chars.drop (visText T).length) := by
  constructor
  · by_cases hb : strContains (visText T) T.store.chars = true
    · have hEq : visText T = T.store.chars := by
        rw [visText_take T hwf.1]
        exact (strContains_take_iff T.store.chars (claimedLen T.frames)).mp
          (by rw [← visText_take T hwf.1]; exact hb)
      have hb2 : strContains T.store.chars T.store.chars = true := by
        rw [hEq] at hb; exact hb
      simp [overleaf, hEq, hb2]
    · have hNe : ¬ visText T = T.store.chars := by
        intro hEq
        apply hb
        rw [visText_take T hwf.1]
        apply (strContains_take_iff T.store.chars (claimedLen T.frames)).mpr
        rw [← visText_take T hwf.1]
        exact hEq
      simp [overleaf, hb, hNe]
  · intro P hP
    exact (overleaf_some T r P hP).2.1

/-- Claim C5, witness at the fully-visible Text "ab": `overleaf` returns
nothing exactly because the visible text is the whole buffer. -/
theorem overleaf_none_iff_witness :
    wf exT5 ∧ (overleaf exT5 [] = none ↔ visText exT5 = exT5.store.chars) :=
  ⟨by decide, (overleaf_none_iff exT5 [] (by decide)).1⟩

/-- Claim C3: `flow(N)` yields at most `N - 1` new frames (the total frame
count, original frame 0 included, never exceeds the effective column count
`max N 1`; the argument `0` is coerced to 1 by the sanity check), and a
frame is only ever created while the cumulative glyph count claimed by the
existing frames is still below the shaping engine's total glyph count - so
creation stops as soon as the claims reach the total, and the yielded
sequence is a finite list by construction. -/
theorem flow_termination (claims : Nat → Nat) (total : Nat) (frames : List Nat) (N : Nat) :
    (flowModel claims total frames (.cols (N : Int))).1.length ≤ N - 1 ∧
    (flowModel claims total frames (.cols (N : Int))).2.length ≤ max N 1 ∧
    (∀ i, i < (flowModel claims total frames (.cols (N : Int))).1.length →
      (claims 0 :: (flowModel claims total frames (.cols (N : Int))).1).getD i 0 < total) := by
  have hcap : ((coerceCols (.cols (N : Int))).toNat - 1) = N - 1 := by
    simp only [coerceCols]
    cases N with
    | zero => simp
    | succ n =>
      rw [if_neg (by exact_mod_cast Nat.succ_ne_zero n)]
      simp
  simp only [flowModel, hcap]
  refine ⟨reflowGo_length claims total (N-1) 1 (claims 0), ?_, ?_⟩
  · rw [List.length_append]
    have h1 : (frames.take 1).length ≤ 1 := by
      rw [List.length_take]; omega
    have h2 := reflowGo_length claims total (N-1) 1 (claims 0)
    omega
  · intro i hi
    exact reflowGo_stop claims total (N-1) 1 (claims 0) i hi

/-- Claim C3, witness: with engine claims `5*(i+1)` and 12 glyphs total,
`flow(5)` creates its first extra frame only because the cumulative claim
at that point (5) is below the 12-glyph total. -/
theorem flow_termination_witness :
    (exClaims 0 :: (flowModel exClaims 12 [0] (.cols ((5 : Nat) : Int))).1).getD 0 0 < 12 :=
  (flow_termination exClaims 12 [0] 5).2.2 0 (by decide)

/-- Claim C4 (amended): a `flow` call whose coerced column count is at most
1 (including the inputs `0` and `None`, both coerced to 1) short-circuits
to an EMPTY result list - the returned `list(generator)` yields nothing,
not a single element - while ejecting every frame after index 0, so the
Text is left with only its original frame and no new frame is created. -/
theorem flow_single_frame (claims : Nat → Nat) (total : Nat) (frames : List Nat)
    (columns : FlowArg) (h : coerceCols columns ≤ 1) :
    flowModel claims total frames columns = ([], frames.take 1) ∧
    coerceCols (.cols 0) = 1 ∧ coerceCols .noneArg = 1 := by
  refine ⟨?_, by decide, rfl⟩
  simp only [flowModel]
  have hcap : (coerceCols columns).toNat - 1 = 0 := by omega
  rw [hcap]
  simp [reflowGo]

/-- Claim C4, witness: `flow(None)` on a Text with two frames returns no
new frames and leaves only the first frame. -/
theorem flow_single_frame_witness :
    flowModel exClaims 12 [3, 7] .noneArg = ([], [3]) ∧ coerceCols .noneArg = 1 :=
  ⟨(flow_single_frame exClaims 12 [3, 7] .noneArg (by decide)).1,
   (flow_single_frame exClaims 12 [3, 7] .noneArg (by decide)).2.2⟩

/-- Claim C4, counterexample to "short-circuits to a single-element
result": `flow(1)` returns the empty list (its generator yields nothing),
a zero-element result, not a single-element one. -/
theorem flow_single_frame_counterexample :
    flowModel exClaims 12 [3, 7] (.cols 1) = ([], [3]) ∧
    (flowModel exClaims 12 [3, 7] (.cols 1)).1.length ≠ 1 := by decide

/-- Claim C6: in every append, for every position `i` of the final appended
text that follows the override-escape character preceded by a newline
(first conjunct: the flush applies to the escape's own index `i-1`, where
the line containing `i` starts), or that follows two or more consecutive
newlines and begins a non-empty line (second conjunct), the line starting
there is forced flush-left: after the heuristic its paragraph style
carries no positive first-line indent. -/
theorem append_dedent_blank (pre : List Char) (t : AttrString) (i : Nat) :
    (2 ≤ i → t.chars.getD (i-1) 'X' = '\x08' → t.chars.getD (i-2) 'X' = '\n' →
      flushAt (appendDedents pre t) (i-1)) ∧
    (2 ≤ i → i < t.chars.length → t.chars.getD i 'X' ≠ '\n' →
      t.chars.getD (i-1) 'X' = '\n' → t.chars.getD (i-2) 'X' = '\n' →
      flushAt (appendDedents pre t) i) := by
  have hch : (preDedent pre t).chars = t.chars := preDedent_chars pre t
  constructor
  · intro h2 hesc hnl
    simp only [appendDedents]
    apply flushAt_foldl_mem
    rw [hch]
    have hm := scan_mem_escape t.chars false 0 (i-2) hnl
      (by rw [show i-2+1 = i-1 by omega]; exact hesc)
    rw [show (0:Nat) + (i-2) + 1 = i - 1 by omega] at hm
    exact hm
  · intro h2 hlen hnn hn1 hn2
    simp only [appendDedents]
    apply flushAt_foldl_mem
    rw [hch]
    have hm := scan_mem_blank t.chars false 0 (i-2) hn2
      (by rw [show i-2+1 = i-1 by omega]; exact hn1)
      (by omega)
      (by rw [show i-2+2 = i by omega]; exact hnn)
    rw [show (0:Nat) + (i-2) + 2 = i by omega] at hm
    exact hm

/-- Claim C6, witness (the claim's own scenario): appending "A\n\n\tB"
leaves the line starting at position 3 (the tab opening the paragraph that
holds `B`) flush-left by the double-newline rule, although the
override-escape was not used. -/
theorem append_dedent_blank_witness :
    flushAt (appendDedents ['X'] exT6) 3 :=
  (append_dedent_blank ['X'] exT6 3).2 (by decide) (by decide) (by decide)
    (by decide) (by decide)

/-- Claim C7 (amended): a paragraph of the appended text that begins with
an explicit tab after a blank line is STILL dedented by the flush-left
heuristic - the heuristic is not suppressed for it (first conjunct; the
counterexample shows its paragraph style being rewritten).  What re-applies
the visible first-line indentation is the tab character itself: it
advances to the default tab stop, which `_fontify` sets to the absolute
indent width `|font.size * indent|` when that is nonzero and to the font
size when the style's indent is zero (remaining conjuncts). -/
theorem tab_indent (pre : List Char) (t : AttrString) (i : Nat) (size indent : ℚ) :
    (2 ≤ i → t.chars.getD i 'X' = '\t' →
      t.chars.getD (i-1) 'X' = '\n' → t.chars.getD (i-2) 'X' = '\n' →
      flushAt (appendDedents pre t) i) ∧
    (size * indent ≠ 0 → fontifyTabs size indent = |size * indent|) ∧
    (size * indent = 0 → fontifyTabs size indent = |size|) := by
  refine ⟨?_, ?_, ?_⟩
  · intro h2 ht hn1 hn2
    have hlen : i < t.chars.length := by
      by_contra hge
      rw [List.getD_eq_default _ _ (by omega)] at ht
      exact absurd ht (by decide)
    simp only [appendDedents]
    apply flushAt_foldl_mem
    rw [preDedent_chars pre t]
    have hm := scan_mem_blank t.chars false 0 (i-2) hn2
      (by rw [show i-2+1 = i-1 by omega]; exact hn1)
      (by omega)
      (by rw [show i-2+2 = i by omega, ht]; decide)
    rw [show (0:Nat) + (i-2) + 2 = i by omega] at hm
    exact hm
  · intro h
    simp only [fontifyTabs]
    rw [if_neg h]
  · intro h
    simp only [fontifyTabs]
    rw [if_pos h]

/-- Claim C7, counterexample to "suppresses the heuristic for that
paragraph": in the appended text "A\n\n\tB" the paragraph starting with
the explicit tab (position 3) has its paragraph style rewritten by the
heuristic - its first-line indent drops from 10 to the body indent 0 -
so the flush-left heuristic did fire on the tab-marked paragraph, and no
first-line indent is re-applied in the paragraph style. -/
theorem tab_indent_counterexample :
    exT6.chars.getD 3 'X' = '\t' ∧
    (appendDedents ['X'] exT6).grafs.getD 3 default ≠ exT6.grafs.getD 3 default ∧
    (appendDedents ['X'] exT6).grafs.getD 3 default = ⟨0, 0⟩ := by decide

/-- Claim C7, witness for the amended theorem: the tab-opened paragraph of
"A\n\n\tB" is dedented, and the tab-stop width is the font size 12 for a
zero indent and `|12 * (-2)| = 24` for indent `-2`. -/
theorem tab_indent_witness :
    flushAt (appendDedents ['X'] exT6) 3 ∧
    fontifyTabs 12 0 = 12 ∧ fontifyTabs 12 (-2) = 24 :=
  ⟨(tab_indent ['X'] exT6 3 12 0).1 (by decide) (by decide) (by decide) (by decide),
   by simpa using (tab_indent ['X'] exT6 3 12 0).2.2 (by norm_num),
   by
     have h := (tab_indent ['X'] exT6 3 12 (-2)).2.1 (by norm_num)
     norm_num at h
     exact h⟩

/-- Claim C8: for every Unicode case mapping `lower` (the external
`unicode.lower` table), `find` with a pattern string containing no
upper-case letter - no character that lowercasing changes - compiles it
case-insensitively with DOTALL; a pattern string containing an upper-case
letter (a character its `lower()` changes, which is what makes the
pattern's case "mixed") is compiled case-sensitively, still with DOTALL;
every pattern string gets DOTALL; and a precompiled pattern object is used
with its own flags. -/
theorem find_flags (lower : Char → Char) (p : List Char) :
    ((∀ c ∈ p, lower c = c) → findCompile lower (.strPat p) = .ok ⟨true, true⟩) ∧
    ((∃ c ∈ p, lower c ≠ c) → findCompile lower (.strPat p) = .ok ⟨false, true⟩) ∧
    (∀ flags, findCompile lower (.compiled flags) = .ok flags) ∧
    (∀ q : List Char, ∃ flags,
      findCompile lower (.strPat q) = .ok flags ∧ flags.dotAll = true) := by
  refine ⟨?_, ?_, fun _ => rfl, fun q => ⟨⟨decide (q.map lower = q), true⟩, rfl, rfl⟩⟩
  · intro h
    have hmap : p.map lower = p := (map_lower_eq_self_iff lower p).mpr h
    simp [findCompile, hmap]
  · rintro ⟨c, hc, hu⟩
    have hmap : ¬ (p.map lower = p) := by
      intro hmap
      exact hu ((map_lower_eq_self_iff lower p).mp hmap c hc)
    simp [findCompile, hmap]

/-- Claim C8, witness under a case mapping that lowers `Ä` to `ä`: "abc"
(no character changed by lowercasing) is compiled with `re.I|re.S`, while
"Äpfel" - whose non-ASCII upper-case `Ä` the mapping changes - is
compiled case-sensitively with `re.S` only. -/
theorem find_flags_witness :
    findCompile exLower (.strPat ['a', 'b', 'c']) = .ok ⟨true, true⟩ ∧
    findCompile exLower (.strPat ['Ä', 'p', 'f', 'e', 'l']) = .ok ⟨false, true⟩ :=
  ⟨(find_flags exLower ['a', 'b', 'c']).1 (by decide),
   (find_flags exLower ['Ä', 'p', 'f', 'e', 'l']).2.1 ⟨'Ä', by decide, by decide⟩⟩

/-- Claim C9: `group`, `groups` and `groupdict` fail with the
unsupported-operation error on every Match not sourced from a pattern
match (word/paragraph ranges, xml tag regions, frame membership, sub-group
tuples, and the bare subscript construction), and never fail with that
error on a pattern-sourced Match. -/
theorem match_group_gate :
    (∀ src : MatchSrc, (∀ mm s e, src ≠ .reMatch mm s e) →
      (∀ i, (TextMatchM.mk' src).group1 i = .error .unsupportedOperation) ∧
      (TextMatchM.mk' src).groupsM = .error .unsupportedOperation ∧
      (TextMatchM.mk' src).groupdictM = .error .unsupportedOperation) ∧
    (∀ mm s e,
      (∀ i, (TextMatchM.mk' (.reMatch mm s e)).group1 i ≠ .error .unsupportedOperation) ∧
      (TextMatchM.mk' (.reMatch mm s e)).groupsM ≠ .error .unsupportedOperation ∧
      (TextMatchM.mk' (.reMatch mm s e)).groupdictM ≠ .error .unsupportedOperation) := by
  constructor
  · intro src hsrc
    cases src with
    | nsrange loc len => exact ⟨fun _ => rfl, rfl, rfl⟩
    | xmlElement tag e => exact ⟨fun _ => rfl, rfl, rfl⟩
    | textFrame loc len => exact ⟨fun _ => rfl, rfl, rfl⟩
    | reMatch mm s e => exact absurd rfl (hsrc mm s e)
    | subTuple s e g => exact ⟨fun _ => rfl, rfl, rfl⟩
    | noMatch => exact ⟨fun _ => rfl, rfl, rfl⟩
  · intro mm s e
    refine ⟨fun i => ?_, by simp [TextMatchM.mk', TextMatchM.groupsM], by
      simp [TextMatchM.mk', TextMatchM.groupdictM]⟩
    simp [TextMatchM.mk', TextMatchM.group1]

/-- Claim C9, witness: the subscript-built Match rejects `group`, a
pattern-built Match does not raise the unsupported-operation error. -/
theorem match_group_gate_witness :
    (TextMatchM.mk' .noMatch).group1 0 = .error .unsupportedOperation ∧
    (TextMatchM.mk' (.reMatch ⟨[(0, 3)]⟩ 0 3)).group1 0 ≠ .error .unsupportedOperation :=
  ⟨(match_group_gate.1 .noMatch (fun mm s e => by simp)).1 0,
   (match_group_gate.2 ⟨[(0, 3)]⟩ 0 3).1 0⟩

/-- Claim C10: subscripting a Text with a single integer index first adds
the text length to a negative index; the out-of-range error is raised
exactly when the adjusted index falls outside `[0, length)`; and every
successful subscript returns the adjusted index with `end = start + 1`. -/
theorem getitem_negative (T : TextModel) (index : Int) :
    (getitemInt T index = .error .indexOutOfRange ↔
      ¬(0 ≤ (if index < 0 then index + (T.store.chars.length : Int) else index) ∧
        (if index < 0 then index + (T.store.chars.length : Int) else index)
          < (T.store.chars.length : Int))) ∧
    (∀ s e : Int, getitemInt T index = .ok (s, e) →
      s = (if index < 0 then index + (T.store.chars.length : Int) else index) ∧
      e = s + 1) := by
  simp only [getitemInt]
  by_cases h : 0 ≤ (if index < 0 then index + (T.store.chars.length : Int) else index) ∧
      (if index < 0 then index + (T.store.chars.length : Int) else index)
        < (T.store.chars.length : Int)
  · rw [if_pos h]
    constructor
    · simp [h]
    · intro s e hok
      rw [Except.ok.injEq, Prod.mk.injEq] at hok
      exact ⟨hok.1.symm, by rw [← hok.2, ← hok.1]⟩
  · rw [if_neg h]
    constructor
    · simp [h]
    · intro s e hok
      cases hok

/-- Claim C10, witness: on the four-character Text "abcd", index `-1`
adjusts to 3 and spans `(3, 4)`; index `-5` adjusts to `-1` and raises the
out-of-range error. -/
theorem getitem_negative_witness :
    ((3 : Int) = (if (-1 : Int) < 0 then -1 + (exT2.store.chars.length : Int) else -1) ∧
      (4 : Int) = 3 + 1) ∧
    getitemInt exT2 (-5) = .error .indexOutOfRange :=
  ⟨(getitem_negative exT2 (-1)).2 3 4 (by decide),
   (getitem_negative exT2 (-5)).1.mpr (by decide)⟩

end PlotDevice
